import Mathlib

/-!
Verification of the live-score WebSocket server (src/main.go and the
serverless handler variant src/unnamed/part_000).

The development shallowly embeds the program:

* `GameState`, `Message` and `applyMessage` embed the shared score state
  and the `switch msg.Action` block of `handleMessages` (main.go lines
  84-101).
* `JVal`, `decodeMessage` and `processPayload` embed the wire payloads,
  the `json.Unmarshal` step (main.go lines 77-81, with Go struct-decoding
  semantics: case-insensitive field matching, unknown fields ignored,
  absent or null fields left at their zero value, type mismatch an error)
  and the body of one read-loop iteration.
* `ScanResult` and `broadcastScan` embed the write loop of
  `Hub.broadcast` (main.go lines 45-56): each member of the client set is
  visited once; a failing write closes the client and deletes it from the
  set at that very visit.
* `Sys`, `Ev`, `step` and `run` embed the whole server as a small-step
  interleaving semantics whose atomic steps match the lock granularity of
  the Go code: registration (serveWs lines 120-122, under the hub lock),
  taking the initial snapshot (lines 127-129, under the state lock),
  writing the initial snapshot (line 130, under no lock), one read-loop
  iteration of `handleMessages` (apply + marshal under the state lock),
  one `hub.broadcast` call (whole scan under the hub lock), and the
  deferred disconnect cleanup (lines 60-66).
* `HandlerState` and `handlerAccept` embed the serverless variant's
  `Handler` (part_000 lines 28-59), which registers the connection and
  starts one `broadcastScoreUpdates` goroutine per accepted connection.
-/

/-- The shared score state (`GameState` in main.go, lines 23-27).
Go `int` is a signed 64-bit integer whose arithmetic wraps on overflow;
scores are carried as `Int` values, and each transition function states
its arithmetic explicitly: `applyMessageWrap` wraps exactly as Go does,
while `applyMessage` uses unbounded arithmetic and agrees with it on
every state whose scores lie strictly below the maximum `int`
(`applyMessage_eq_applyMessageWrap`). -/
structure GameState where
  scoreA : Int
  scoreB : Int
deriving Repr, DecidableEq

/-- The process-start state `GameState{ScoreA: 0, ScoreB: 0}` (main.go line 42). -/
def initialGame : GameState := { scoreA := 0, scoreB := 0 }

/-- A decoded inbound command (`Message` in main.go, lines 30-33). -/
structure Message where
  action : String
  team : String
deriving Repr, DecidableEq

/-- The `switch msg.Action` block of `handleMessages` (main.go lines 85-101),
run under the game-state lock, with unbounded integer arithmetic; see
`applyMessageWrap` for the same block with Go's wrapping 64-bit `int`
arithmetic made explicit.  The two agree on every state whose scores lie
strictly below the maximum `int` (`applyMessage_eq_applyMessageWrap`). -/
def applyMessage (s : GameState) (m : Message) : GameState :=
  if m.action = "increment" then
    if m.team = "A" then { s with scoreA := s.scoreA + 1 }
    else if m.team = "B" then { s with scoreB := s.scoreB + 1 }
    else s
  else if m.action = "decrement" then
    if m.team = "A" ∧ s.scoreA > 0 then { s with scoreA := s.scoreA - 1 }
    else if m.team = "B" ∧ s.scoreB > 0 then { s with scoreB := s.scoreB - 1 }
    else s
  else if m.action = "reset" then { scoreA := 0, scoreB := 0 }
  else s

/-- The rest of a read-loop iteration after a successful decode
(main.go lines 84-108): apply the command, marshal the updated state and
broadcast it unconditionally.  The first component is the new shared
state, the second the broadcast payload (always sent on this path). -/
def processDecoded (s : GameState) (m : Message) : GameState × Option GameState :=
  (applyMessage s m, some (applyMessage s m))

/-- A parsed JSON value; inbound payloads that are not even valid JSON
are outside this type and always fail to decode. -/
inductive JVal where
  | str : String → JVal
  | num : Int → JVal
  | jbool : Bool → JVal
  | null : JVal
  | arr : List JVal → JVal
  | obj : List (String × JVal) → JVal

/-- ASCII lower-casing of one character, the case folding Go's
`encoding/json` applies to ASCII JSON field names. -/
def lowerChar (c : Char) : Char :=
  if 65 ≤ c.toNat ∧ c.toNat ≤ 90 then Char.ofNat (c.toNat + 32) else c

/-- Go's `encoding/json` matches object keys to struct fields exactly or
case-insensitively. -/
def keyMatches (k field : String) : Bool :=
  (k == field) || (k.data.map lowerChar == field.data.map lowerChar)

/-- Processing of one JSON object field by `json.Unmarshal` into a
`Message`: a field matching `action` or `team` must hold a string (JSON
`null` is skipped without error); any other field is ignored. `none`
models an `UnmarshalTypeError`. -/
def setField (m : Message) (k : String) (v : JVal) : Option Message :=
  if keyMatches k "action" then
    match v with
    | .str s => some { m with action := s }
    | .null => some m
    | _ => none
  else if keyMatches k "team" then
    match v with
    | .str s => some { m with team := s }
    | .null => some m
    | _ => none
  else some m

/-- Fold of `setField` over the object fields in order (later duplicate
keys overwrite earlier ones, as in Go). -/
def decodeFields : List (String × JVal) → Message → Option Message
  | [], m => some m
  | (k, v) :: rest, m =>
    match setField m k v with
    | some m2 => decodeFields rest m2
    | none => none

/-- The `json.Unmarshal(payload, &msg)` call of main.go lines 77-78.
Decoding starts from the zero `Message` (empty strings); a JSON `null`
document is a no-op success in Go; any non-object, non-null document is
a type error. -/
def decodeMessage : JVal → Option Message
  | .obj fields => decodeFields fields { action := "", team := "" }
  | .null => some { action := "", team := "" }
  | _ => none

/-- One whole read-loop iteration of `handleMessages` on a successfully
read payload (main.go lines 77-108): a decode failure logs and continues
without touching the state and without broadcasting; a successful decode
applies the command and broadcasts the updated state. -/
def processPayload (s : GameState) (v : JVal) : GameState × Option GameState :=
  match decodeMessage v with
  | none => (s, none)
  | some m => processDecoded s m


/-- Two's-complement wrap-around of Go's 64-bit `int`: in Go, integer
overflow is not an error, the value silently wraps modulo 2^64 into
the range from -2^63 up to 2^63 - 1. -/
def wrap (x : Int) : Int :=
  (x + 9223372036854775808) % 18446744073709551616 - 9223372036854775808

/-- The `switch msg.Action` block of `handleMessages` (main.go lines
85-101) with Go's wrapping 64-bit `int` arithmetic made explicit:
`ScoreA++` at the maximum `int` wraps to the minimum `int`.  This agrees
with `applyMessage` on every state whose scores lie strictly below the
maximum `int`. -/
def applyMessageWrap (s : GameState) (m : Message) : GameState :=
  if m.action = "increment" then
    if m.team = "A" then { s with scoreA := wrap (s.scoreA + 1) }
    else if m.team = "B" then { s with scoreB := wrap (s.scoreB + 1) }
    else s
  else if m.action = "decrement" then
    if m.team = "A" ∧ s.scoreA > 0 then { s with scoreA := wrap (s.scoreA - 1) }
    else if m.team = "B" ∧ s.scoreB > 0 then { s with scoreB := wrap (s.scoreB - 1) }
    else s
  else if m.action = "reset" then { scoreA := 0, scoreB := 0 }
  else s

theorem wrap_wrap_add (x k : Int) : wrap (wrap x + k) = wrap (x + k) := by
  unfold wrap
  omega

theorem applyMessage_eq_applyMessageWrap (s : GameState) (m : Message)
    (hA1 : 0 ≤ s.scoreA) (hA2 : s.scoreA < 9223372036854775807)
    (hB1 : 0 ≤ s.scoreB) (hB2 : s.scoreB < 9223372036854775807) :
    applyMessageWrap s m = applyMessage s m := by
  unfold applyMessageWrap applyMessage wrap
  split_ifs <;> first
    | rfl
    | (congr 1 <;> omega)

theorem foldl_applyMessageWrap_bounds :
    ∀ (cmds : List Message) (s : GameState),
      0 ≤ s.scoreA → 0 ≤ s.scoreB →
      s.scoreA + cmds.length < 9223372036854775808 →
      s.scoreB + cmds.length < 9223372036854775808 →
      0 ≤ (cmds.foldl applyMessageWrap s).scoreA ∧
        (cmds.foldl applyMessageWrap s).scoreA ≤ s.scoreA + cmds.length ∧
        0 ≤ (cmds.foldl applyMessageWrap s).scoreB ∧
        (cmds.foldl applyMessageWrap s).scoreB ≤ s.scoreB + cmds.length := by
  intro cmds
  induction cmds with
  | nil =>
    intro s hA hB h1 h2
    simp only [List.foldl_nil, List.length_nil, Nat.cast_zero]
    omega
  | cons m rest ih =>
    intro s hA hB h1 h2
    push_cast [List.length_cons] at h1 h2
    have hstep : 0 ≤ (applyMessageWrap s m).scoreA ∧
        (applyMessageWrap s m).scoreA ≤ s.scoreA + 1 ∧
        0 ≤ (applyMessageWrap s m).scoreB ∧
        (applyMessageWrap s m).scoreB ≤ s.scoreB + 1 := by
      have hlen : (0 : Int) ≤ (rest.length : Int) := Int.natCast_nonneg _
      unfold applyMessageWrap wrap
      split_ifs <;> (try dsimp only) <;> omega
    obtain ⟨k1, k2, k3, k4⟩ := hstep
    obtain ⟨g1, g2, g3, g4⟩ :=
      ih (applyMessageWrap s m) k1 k3 (by omega) (by omega)
    simp only [List.foldl_cons]
    push_cast [List.length_cons]
    exact ⟨g1, by omega, g3, by omega⟩

/-- C1, amended: for every sequence of fewer than 2^63 successfully
decoded commands (increment, decrement, reset, or unknown, for any
team) applied to the shared state starting from scoreA = 0, scoreB = 0
with Go's wrapping `int` arithmetic, both scoreA and scoreB are
non-negative at every observed snapshot (every snapshot is the state
after a prefix of the sequence, and every prefix also satisfies the
length bound).  The bound is tight: a score can only overflow after at
least 2^63 increment commands. -/
theorem c1_amended_scores_nonneg_without_overflow (cmds : List Message)
    (hlen : (cmds.length : Int) < 9223372036854775808) :
    0 ≤ (cmds.foldl applyMessageWrap initialGame).scoreA ∧
      0 ≤ (cmds.foldl applyMessageWrap initialGame).scoreB := by
  have h := foldl_applyMessageWrap_bounds cmds initialGame
    (by norm_num [initialGame]) (by norm_num [initialGame])
    (by simpa [initialGame] using hlen) (by simpa [initialGame] using hlen)
  exact ⟨h.1, h.2.2.1⟩

theorem c1_amended_scores_nonneg_without_overflow_witness :
    ((([{ action := "increment", team := "A" }] : List Message).length : Int)
        < 9223372036854775808) ∧
    (0 ≤ (([{ action := "increment", team := "A" }] : List Message).foldl
            applyMessageWrap initialGame).scoreA ∧
      0 ≤ (([{ action := "increment", team := "A" }] : List Message).foldl
            applyMessageWrap initialGame).scoreB) :=
  ⟨by decide,
   c1_amended_scores_nonneg_without_overflow
     [{ action := "increment", team := "A" }] (by decide)⟩

theorem replicate_increment_wraps (n : Nat) :
    ∀ s : GameState, wrap s.scoreA = s.scoreA →
      (List.replicate n { action := "increment", team := "A" }).foldl
          applyMessageWrap s
        = { scoreA := wrap (s.scoreA + n), scoreB := s.scoreB } := by
  induction n with
  | zero =>
    intro s hs
    obtain ⟨a, b⟩ := s
    simp only [List.replicate_zero, List.foldl_nil, Nat.cast_zero, add_zero]
    simp only [wrap] at hs ⊢
    rw [hs]
  | succ n ih =>
    intro s hs
    rw [List.replicate_succ, List.foldl_cons]
    have hstep : applyMessageWrap s { action := "increment", team := "A" }
        = { scoreA := wrap (s.scoreA + 1), scoreB := s.scoreB } := by
      unfold applyMessageWrap
      simp
    rw [hstep]
    have hw : wrap (wrap (s.scoreA + 1)) = wrap (s.scoreA + 1) := by
      have := wrap_wrap_add (s.scoreA + 1) 0
      simpa using this
    rw [ih { scoreA := wrap (s.scoreA + 1), scoreB := s.scoreB } hw]
    have : wrap (wrap (s.scoreA + 1) + n) = wrap (s.scoreA + (n + 1 : Nat)) := by
      rw [wrap_wrap_add]
      congr 1
      push_cast
      ring
    rw [this]

/-- C1, counterexample: it is not the case that for every sequence of
successfully decoded commands both scores are non-negative at every
observed snapshot.  Go `int` arithmetic wraps on overflow, so the
sequence of 2^63 increment commands for team A drives scoreA from 0 up
through the maximum `int` and over the edge to -2^63, a negative
observed snapshot. -/
theorem c1_counterexample_overflow :
    ¬ (∀ cmds : List Message,
         0 ≤ (cmds.foldl applyMessageWrap initialGame).scoreA ∧
           0 ≤ (cmds.foldl applyMessageWrap initialGame).scoreB) := by
  intro h
  have h2 := (h (List.replicate 9223372036854775808
    { action := "increment", team := "A" })).1
  rw [replicate_increment_wraps 9223372036854775808 initialGame
    (by show wrap (0 : Int) = (0 : Int); unfold wrap; omega)] at h2
  dsimp only [initialGame] at h2
  have hval : wrap ((0 : Int) + (9223372036854775808 : Nat)) = -9223372036854775808 := by
    unfold wrap
    push_cast
  rw [hval] at h2
  omega


/-- C2: For every state in which a team's score is 0, a decrement command
for that team leaves that team's score (indeed the whole state)
unchanged — a silent no-op, not an error — and the processor still
broadcasts a snapshot equal to the prior state. -/
theorem c2_decrement_at_zero_noop (s : GameState) (t : String)
    (h : (t = "A" ∧ s.scoreA = 0) ∨ (t = "B" ∧ s.scoreB = 0)) :
    processDecoded s { action := "decrement", team := t } = (s, some s) := by
  have happ : applyMessage s { action := "decrement", team := t } = s := by
    unfold applyMessage
    rcases h with ⟨ht, h0⟩ | ⟨ht, h0⟩ <;> subst ht <;> simp [h0]
  simp [processDecoded, happ]

theorem c2_decrement_at_zero_noop_witness :
    processDecoded { scoreA := 0, scoreB := 7 } { action := "decrement", team := "A" }
      = ({ scoreA := 0, scoreB := 7 }, some { scoreA := 0, scoreB := 7 }) :=
  c2_decrement_at_zero_noop { scoreA := 0, scoreB := 7 } "A" (Or.inl ⟨rfl, rfl⟩)

/-- C8: A successfully decoded command whose action is not one of
increment, decrement, reset, or whose team is not A or B for a
team-targeted (increment/decrement) action, leaves both scores
unchanged, yet the broadcast of the (unchanged) snapshot still occurs. -/
theorem c8_unknown_command_noop_still_broadcasts (s : GameState) (m : Message)
    (h : (m.action ≠ "increment" ∧ m.action ≠ "decrement" ∧ m.action ≠ "reset") ∨
         ((m.action = "increment" ∨ m.action = "decrement") ∧
            m.team ≠ "A" ∧ m.team ≠ "B")) :
    processDecoded s m = (s, some s) := by
  have happ : applyMessage s m = s := by
    unfold applyMessage
    rcases h with ⟨h1, h2, h3⟩ | ⟨h1 | h1, h2, h3⟩ <;>
      split_ifs <;> simp_all
  simp [processDecoded, happ]

theorem c8_unknown_command_noop_still_broadcasts_witness :
    processDecoded { scoreA := 3, scoreB := 4 } { action := "bogus", team := "A" }
      = ({ scoreA := 3, scoreB := 4 }, some { scoreA := 3, scoreB := 4 }) :=
  c8_unknown_command_noop_still_broadcasts { scoreA := 3, scoreB := 4 }
    { action := "bogus", team := "A" } (Or.inl (by decide))

/-- State of one `Hub.broadcast` scan (main.go lines 45-56): the client
set as the scan sees it, the successful writes so far in visit order,
and the clients closed (and deleted) so far in visit order.  Clients are
identified by natural numbers. -/
structure ScanResult where
  registry : List Nat
  delivered : List (Nat × GameState)
  closedNow : List Nat
deriving Repr, DecidableEq

/-- One iteration of the `for client := range h.clients` loop (main.go
lines 48-55): attempt the write; on failure close the connection and
delete it from the client set right there, mid-scan; on success record
the delivery and move on. -/
def scanStep (fails : Nat → Bool) (msg : GameState) (r : ScanResult) (c : Nat) :
    ScanResult :=
  if fails c then
    { r with registry := r.registry.erase c, closedNow := r.closedNow ++ [c] }
  else
    { r with delivered := r.delivered ++ [(c, msg)] }

/-- The whole `Hub.broadcast` scan, run under the hub lock: `members` is
the visit order of the client set (Go map iteration order is
unspecified; a key deleted at its own visit is never revisited, so the
loop visits exactly the original members, each once), `registry` the
client set at entry, and `fails` tells which connections' transport
writes fail. -/
def broadcastScan (registry : List Nat) (members : List Nat)
    (fails : Nat → Bool) (msg : GameState) : ScanResult :=
  members.foldl (scanStep fails msg) { registry := registry, delivered := [], closedNow := [] }

theorem scan_registry (fails : Nat → Bool) (msg : GameState) :
    ∀ (ms reg : List Nat) (dl : List (Nat × GameState)) (cl : List Nat),
      (List.foldl (scanStep fails msg) { registry := reg, delivered := dl, closedNow := cl } ms).registry
        = ms.foldl (fun r c => if fails c then r.erase c else r) reg := by
  intro ms
  induction ms with
  | nil => intro reg dl cl; rfl
  | cons c ms ih =>
    intro reg dl cl
    by_cases hc : fails c = true <;> simp [scanStep, hc, ih]

theorem scan_delivered (fails : Nat → Bool) (msg : GameState) :
    ∀ (ms reg : List Nat) (dl : List (Nat × GameState)) (cl : List Nat),
      (List.foldl (scanStep fails msg) { registry := reg, delivered := dl, closedNow := cl } ms).delivered
        = dl ++ (ms.filter (fun c => !fails c)).map (fun c => (c, msg)) := by
  intro ms
  induction ms with
  | nil => intro reg dl cl; simp [List.foldl_nil]
  | cons c ms ih =>
    intro reg dl cl
    by_cases hc : fails c = true <;> simp [scanStep, hc, ih]

theorem scan_closed (fails : Nat → Bool) (msg : GameState) :
    ∀ (ms reg : List Nat) (dl : List (Nat × GameState)) (cl : List Nat),
      (List.foldl (scanStep fails msg) { registry := reg, delivered := dl, closedNow := cl } ms).closedNow
        = cl ++ ms.filter fails := by
  intro ms
  induction ms with
  | nil => intro reg dl cl; simp [List.foldl_nil]
  | cons c ms ih =>
    intro reg dl cl
    by_cases hc : fails c = true <;> simp [scanStep, hc, ih]

theorem eraseFold_eq_filter (fails : Nat → Bool) :
    ∀ (p reg : List Nat), reg.Nodup →
      p.foldl (fun r c => if fails c then r.erase c else r) reg
        = reg.filter (fun c => !(p.contains c && fails c)) := by
  intro p
  induction p with
  | nil => intro reg hreg; simp
  | cons c p ih =>
    intro reg hreg
    by_cases hc : fails c = true
    · have herase : reg.erase c = reg.filter (fun x => x != c) :=
        List.Nodup.erase_eq_filter hreg c
      have hnd : (reg.erase c).Nodup := List.Nodup.erase c hreg
      calc (c :: p).foldl (fun r x => if fails x then r.erase x else r) reg
          = p.foldl (fun r x => if fails x then r.erase x else r) (reg.erase c) := by
            simp [hc]
        _ = (reg.erase c).filter (fun x => !(p.contains x && fails x)) := ih _ hnd
        _ = reg.filter (fun x => !((c :: p).contains x && fails x)) := by
            rw [herase, List.filter_filter]
            apply List.filter_congr
            intro x _
            by_cases hx : x = c <;> simp [hx, hc]
    · have hc2 : fails c = false := by simpa using hc
      calc (c :: p).foldl (fun r x => if fails x then r.erase x else r) reg
          = p.foldl (fun r x => if fails x then r.erase x else r) reg := by simp [hc2]
        _ = reg.filter (fun x => !(p.contains x && fails x)) := ih _ hreg
        _ = reg.filter (fun x => !((c :: p).contains x && fails x)) := by
            apply List.filter_congr
            intro x _
            by_cases hx : x = c <;> simp [hx, hc2]

theorem scanRegistry_stage (fails : Nat → Bool) (msg : GameState)
    (reg p : List Nat) (hnd : reg.Nodup) :
    (broadcastScan reg p fails msg).registry
      = reg.filter (fun c => !(p.contains c && fails c)) := by
  rw [broadcastScan, scan_registry, eraseFold_eq_filter _ _ _ hnd]

theorem scanRegistry_full (fails : Nat → Bool) (msg : GameState)
    (reg : List Nat) (hnd : reg.Nodup) :
    (broadcastScan reg reg fails msg).registry = reg.filter (fun c => !fails c) := by
  rw [scanRegistry_stage fails msg reg reg hnd]
  apply List.filter_congr
  intro x hx
  simp [hx]

/-- C3, counterexample: it is not the case that removals are applied only
after the iteration over the member set completes.  With member set
containing connections 0 and 1 and connection 0 failing its write, the
registry already lacks connection 0 after the scan has processed only
the proper prefix consisting of connection 0, while connection 1 is
still unvisited: the set is mutated mid-scan. -/
theorem c3_counterexample_midscan_removal :
    ¬ (∀ (reg members : List Nat) (fails : Nat → Bool) (msg : GameState)
         (p q : List Nat), members = p ++ q → q ≠ [] →
         (broadcastScan reg p fails msg).registry = reg) := by
  intro h
  have := h [0, 1] [0, 1] (fun c => c == 0) initialGame [0] [1] rfl (by simp)
  revert this
  decide

/-- C3, amended: during a broadcast, a connection whose write fails is
closed and deleted from the registry immediately at its own visit,
mid-scan — after the scan has processed any prefix of the member set,
the registry equals the initial registry minus exactly the failed
members of that prefix — and after the whole scan each failing member
has been removed exactly once (the final registry is the initial
registry minus exactly the failed members, with the failed members
recorded once each in visit order and every surviving member delivered
to once). -/
theorem c3_amended_immediate_removal (reg : List Nat) (fails : Nat → Bool)
    (msg : GameState) (hnd : reg.Nodup) :
    (∀ p q, reg = p ++ q →
       (broadcastScan reg p fails msg).registry
         = reg.filter (fun c => !(p.contains c && fails c))) ∧
    (broadcastScan reg reg fails msg).registry = reg.filter (fun c => !fails c) ∧
    (broadcastScan reg reg fails msg).closedNow = reg.filter fails ∧
    (broadcastScan reg reg fails msg).delivered
      = (reg.filter (fun c => !fails c)).map (fun c => (c, msg)) := by
  refine ⟨fun p q hpq => scanRegistry_stage fails msg reg p hnd,
          scanRegistry_full fails msg reg hnd, ?_, ?_⟩
  · rw [broadcastScan, scan_closed]; simp
  · rw [broadcastScan, scan_delivered]; simp

theorem c3_amended_immediate_removal_witness :
    (∀ p q, [0, 1] = p ++ q →
       (broadcastScan [0, 1] p (fun c => c == 0) initialGame).registry
         = [0, 1].filter (fun c => !(p.contains c && (c == 0)))) ∧
    (broadcastScan [0, 1] [0, 1] (fun c => c == 0) initialGame).registry
      = [0, 1].filter (fun c => !(c == 0)) ∧
    (broadcastScan [0, 1] [0, 1] (fun c => c == 0) initialGame).closedNow
      = [0, 1].filter (fun c => c == 0) ∧
    (broadcastScan [0, 1] [0, 1] (fun c => c == 0) initialGame).delivered
      = ([0, 1].filter (fun c => !(c == 0))).map (fun c => (c, initialGame)) :=
  c3_amended_immediate_removal [0, 1] (fun c => c == 0) initialGame (by decide)

/-- C4: if a write to one connection fails during a broadcast, that
connection is closed and removed from the registry, every other
registered connection whose write does not fail still receives that same
broadcast payload, and the removed connection receives nothing from any
subsequent broadcast over the resulting registry. -/
theorem c4_failed_write_evicted_others_delivered (reg : List Nat)
    (fails : Nat → Bool) (msg : GameState) (c : Nat)
    (hnd : reg.Nodup) (hc : c ∈ reg) (hf : fails c = true) :
    (c ∉ (broadcastScan reg reg fails msg).registry ∧
       c ∈ (broadcastScan reg reg fails msg).closedNow) ∧
    (∀ d, d ∈ reg → fails d = false →
       (d, msg) ∈ (broadcastScan reg reg fails msg).delivered) ∧
    (∀ (fails2 : Nat → Bool) (msg2 : GameState) (x : Nat × GameState),
       x ∈ (broadcastScan (broadcastScan reg reg fails msg).registry
              (broadcastScan reg reg fails msg).registry fails2 msg2).delivered →
       x.1 ≠ c) := by
  have hreg := scanRegistry_full fails msg reg hnd
  have hcl : (broadcastScan reg reg fails msg).closedNow = reg.filter fails := by
    rw [broadcastScan, scan_closed]; simp
  have hdl : (broadcastScan reg reg fails msg).delivered
      = (reg.filter (fun d => !fails d)).map (fun d => (d, msg)) := by
    rw [broadcastScan, scan_delivered]; simp
  refine ⟨⟨?_, ?_⟩, ?_, ?_⟩
  · rw [hreg]
    intro hmem
    have := (List.mem_filter.mp hmem).2
    simp [hf] at this
  · rw [hcl]
    exact List.mem_filter.mpr ⟨hc, hf⟩
  · intro d hd hfd
    rw [hdl]
    exact List.mem_map.mpr ⟨d, List.mem_filter.mpr ⟨hd, by simp [hfd]⟩, rfl⟩
  · intro fails2 msg2 x hx
    have hnd2 : (broadcastScan reg reg fails msg).registry.Nodup := by
      rw [hreg]; exact List.Nodup.filter _ hnd
    have hdl2 := scan_delivered fails2 msg2
      (broadcastScan reg reg fails msg).registry
      (broadcastScan reg reg fails msg).registry [] []
    rw [broadcastScan, hdl2] at hx
    simp only [List.nil_append, List.mem_map] at hx
    obtain ⟨d, hdm, hdx⟩ := hx
    have hdin : d ∈ (broadcastScan reg reg fails msg).registry :=
      (List.mem_filter.mp hdm).1
    rw [hreg] at hdin
    have hdf := (List.mem_filter.mp hdin).2
    intro hxc
    rw [← hdx] at hxc
    simp at hxc
    rw [hxc] at hdf
    simp [hf] at hdf

theorem c4_failed_write_evicted_others_delivered_witness :
    (1 ∉ (broadcastScan [0, 1, 2] [0, 1, 2] (fun c => c == 1) { scoreA := 2, scoreB := 3 }).registry ∧
       1 ∈ (broadcastScan [0, 1, 2] [0, 1, 2] (fun c => c == 1) { scoreA := 2, scoreB := 3 }).closedNow) ∧
    (∀ d, d ∈ [0, 1, 2] → (d == 1) = false →
       (d, { scoreA := 2, scoreB := 3 : GameState }) ∈
         (broadcastScan [0, 1, 2] [0, 1, 2] (fun c => c == 1) { scoreA := 2, scoreB := 3 }).delivered) ∧
    (∀ (fails2 : Nat → Bool) (msg2 : GameState) (x : Nat × GameState),
       x ∈ (broadcastScan
              (broadcastScan [0, 1, 2] [0, 1, 2] (fun c => c == 1) { scoreA := 2, scoreB := 3 }).registry
              (broadcastScan [0, 1, 2] [0, 1, 2] (fun c => c == 1) { scoreA := 2, scoreB := 3 }).registry
              fails2 msg2).delivered →
       x.1 ≠ 1) :=
  c4_failed_write_evicted_others_delivered [0, 1, 2] (fun c => c == 1)
    { scoreA := 2, scoreB := 3 } 1 (by decide) (by decide) (by decide)

/-- State of the serverless handler variant (src/unnamed/part_000): the
registered client connections and the number of `broadcastScoreUpdates`
simulator goroutines started so far.  A started simulator loops over a
ticker forever (part_000 lines 62-91), so started tasks never stop. -/
structure HandlerState where
  clients : List Nat
  simTasks : Nat
deriving Repr, DecidableEq

/-- The process-start state of the serverless variant: no clients, no
simulator task (part_000 lines 24-25). -/
def initialHandlerState : HandlerState := { clients := [], simTasks := 0 }

/-- One accepted connection in `Handler` (part_000 lines 28-47): the
connection is registered in the client set under the mutex, and then
`go broadcastScoreUpdates()` starts one more simulator goroutine. -/
def handlerAccept (st : HandlerState) (c : Nat) : HandlerState :=
  { clients := c :: st.clients, simTasks := st.simTasks + 1 }

theorem handlerAccept_simTasks (cs : List Nat) :
    ∀ st : HandlerState,
      (cs.foldl handlerAccept st).simTasks = st.simTasks + cs.length := by
  induction cs with
  | nil => intro st; simp
  | cons c cs ih =>
    intro st
    simp [handlerAccept, ih]
    omega

/-- C9, counterexample: it is not the case that at most one periodic
background simulator task is running regardless of how many connections
have been accepted — after accepting two connections, the serverless
handler has started two `broadcastScoreUpdates` tasks. -/
theorem c9_counterexample_two_simulators :
    ¬ (∀ cs : List Nat,
         (cs.foldl handlerAccept initialHandlerState).simTasks ≤ 1) := by
  intro h
  have := h [0, 1]
  revert this
  decide

/-- C9, amended: the serverless handler starts exactly one periodic
background simulator task per accepted connection, so after n accepted
connections exactly n simulator tasks have been started (and none of
them ever stops); at most one simulator runs only while at most one
connection has ever been accepted. -/
theorem c9_amended_one_simulator_per_connection (cs : List Nat) :
    (cs.foldl handlerAccept initialHandlerState).simTasks = cs.length := by
  simpa [initialHandlerState] using handlerAccept_simTasks cs initialHandlerState

/-- A JSON object field whose key matches `action` or `team` must hold a
string for Go struct decoding to succeed; any other field never causes
an error. -/
def goodField (f : String × JVal) : Bool :=
  if keyMatches f.1 "action" || keyMatches f.1 "team" then
    match f.2 with
    | .str _ => true
    | .null => true
    | _ => false
  else true

/-- C10, counterexample: it is not the case that every valid JSON object
decodes successfully as a Command — the valid JSON object with field
`action` holding the number 5 makes `json.Unmarshal` return an
`UnmarshalTypeError`, so the read loop treats it as a decode failure
(no state change, no broadcast), not as a no-op command. -/
theorem c10_counterexample_nonstring_action :
    ¬ (∀ fields : List (String × JVal),
         (decodeMessage (JVal.obj fields)).isSome = true) := by
  intro h
  have := h [("action", JVal.num 5)]
  revert this
  decide

theorem decodeFields_good :
    ∀ (fields : List (String × JVal)) (m : Message),
      (∀ f ∈ fields, goodField f = true) →
      ∃ m2, decodeFields fields m = some m2 ∧
        ((∀ f ∈ fields, keyMatches f.1 "action" = false) → m2.action = m.action) ∧
        ((∀ f ∈ fields, keyMatches f.1 "team" = false) → m2.team = m.team) := by
  intro fields
  induction fields with
  | nil => intro m _; exact ⟨m, rfl, fun _ => rfl, fun _ => rfl⟩
  | cons f rest ih =>
    intro m hgood
    obtain ⟨k, v⟩ := f
    have hf := hgood ⟨k, v⟩ (List.mem_cons_self _ _)
    have hrest : ∀ g ∈ rest, goodField g = true :=
      fun g hg => hgood g (List.mem_cons_of_mem _ hg)
    by_cases hka : keyMatches k "action" = true
    · have hset : ∃ m1, setField m k v = some m1 ∧ m1.team = m.team := by
        clear ih hrest hgood
        simp only [goodField, hka, Bool.true_or, if_pos] at hf
        cases v <;> simp_all [setField, hka]
      obtain ⟨m1, hm1, hteam⟩ := hset
      obtain ⟨m2, hm2, hact2, hteam2⟩ := ih m1 hrest
      refine ⟨m2, by simp [decodeFields, hm1, hm2], ?_, ?_⟩
      · intro hnone
        have := hnone ⟨k, v⟩ (List.mem_cons_self _ _)
        simp [hka] at this
      · intro hnone
        have hr : ∀ f ∈ rest, keyMatches f.1 "team" = false :=
          fun f hf2 => hnone f (List.mem_cons_of_mem _ hf2)
        rw [hteam2 hr, hteam]
    · by_cases hkt : keyMatches k "team" = true
      · have hset : ∃ m1, setField m k v = some m1 ∧ m1.action = m.action := by
          clear ih hrest hgood
          simp only [goodField, hkt, Bool.or_true, if_pos] at hf
          cases v <;> simp_all [setField, hka, hkt]
        obtain ⟨m1, hm1, hact⟩ := hset
        obtain ⟨m2, hm2, hact2, hteam2⟩ := ih m1 hrest
        refine ⟨m2, by simp [decodeFields, hm1, hm2], ?_, ?_⟩
        · intro hnone
          have hr : ∀ f ∈ rest, keyMatches f.1 "action" = false :=
            fun f hf2 => hnone f (List.mem_cons_of_mem _ hf2)
          rw [hact2 hr, hact]
        · intro hnone
          have := hnone ⟨k, v⟩ (List.mem_cons_self _ _)
          simp [hkt] at this
      · have hset : setField m k v = some m := by
          simp [setField, hka, hkt]
        obtain ⟨m2, hm2, hact2, hteam2⟩ := ih m hrest
        refine ⟨m2, by simp [decodeFields, hset, hm2], ?_, ?_⟩
        · intro hnone
          exact hact2 fun f hf2 => hnone f (List.mem_cons_of_mem _ hf2)
        · intro hnone
          exact hteam2 fun f hf2 => hnone f (List.mem_cons_of_mem _ hf2)

/-- C10, amended: every valid JSON object whose fields matching `action`
or `team` (case-insensitively, as Go matches struct fields) hold strings
or null decodes successfully as a Command; unknown fields are ignored
and absent action/team fields decode to empty strings, so such a payload
is a successfully decoded command — the empty object in particular
decodes to the no-op command with empty action and team, and the read
loop still applies it and broadcasts the unchanged state rather than
treating it as a decode failure. -/
theorem c10_amended_good_objects_decode (fields : List (String × JVal))
    (hgood : ∀ f ∈ fields, goodField f = true) :
    (∃ m, decodeMessage (JVal.obj fields) = some m ∧
       ((∀ f ∈ fields, keyMatches f.1 "action" = false) → m.action = "") ∧
       ((∀ f ∈ fields, keyMatches f.1 "team" = false) → m.team = "")) ∧
    (∀ s : GameState,
       processPayload s (JVal.obj []) = (s, some s)) := by
  constructor
  · obtain ⟨m2, hm2, hact, hteam⟩ :=
      decodeFields_good fields { action := "", team := "" } hgood
    exact ⟨m2, by simpa [decodeMessage] using hm2, hact, hteam⟩
  · intro s
    have : applyMessage s { action := "", team := "" } = s := by
      unfold applyMessage; simp
    simp [processPayload, decodeMessage, decodeFields, processDecoded, this]

theorem c10_amended_good_objects_decode_witness :
    (∃ m, decodeMessage (JVal.obj [("foo", JVal.num 1)]) = some m ∧
       ((∀ f ∈ [("foo", JVal.num 1)], keyMatches f.1 "action" = false) → m.action = "") ∧
       ((∀ f ∈ [("foo", JVal.num 1)], keyMatches f.1 "team" = false) → m.team = "")) ∧
    (∀ s : GameState,
       processPayload s (JVal.obj []) = (s, some s)) :=
  c10_amended_good_objects_decode [("foo", JVal.num 1)] (by decide)

/-- Lifecycle phase of one connection, following the Go control flow:
not yet connected; registered in the hub (serveWs lines 120-122); the
initial snapshot taken under the state lock but not yet written (lines
127-129); the read loop blocked on a read (handleMessages line 69); a
command applied and its marshalled snapshot not yet broadcast (lines
84-105); or disconnected after the deferred cleanup (lines 60-66). -/
inductive Phase where
  | absent
  | registered
  | snapped (s : GameState)
  | active
  | applied (s : GameState)
  | done
deriving Repr, DecidableEq

/-- Kind of a successful write to a connection: the one-off initial
snapshot write of serveWs line 130, or a `hub.broadcast` write. -/
inductive Kind where
  | init
  | bcast
deriving Repr, DecidableEq

/-- Global server state: the shared `gameState`, the hub's client set,
each connection's phase, how many times each connection's transport has
been closed, and the sequence of successful writes in delivery order. -/
structure Sys where
  game : GameState
  registry : List Nat
  phase : Nat → Phase
  closeCount : Nat → Nat
  log : List (Nat × GameState × Kind)

/-- Pointwise function update. -/
def upd {α : Type} (f : Nat → α) (c : Nat) (a : α) : Nat → α :=
  fun d => if d = c then a else f d

theorem upd_same {α : Type} (f : Nat → α) (c : Nat) (a : α) : upd f c a c = a := by
  simp [upd]

theorem upd_ne {α : Type} (f : Nat → α) (c : Nat) (a : α) (d : Nat) (h : d ≠ c) :
    upd f c a d = f d := by
  simp [upd, h]

/-- Atomic steps of the server, one per lock-protected (or lock-free)
region of the Go code.  Steps of different connections interleave
arbitrarily, as goroutines do. -/
inductive Ev where
  | register (c : Nat)
  | snapInit (c : Nat)
  | writeInit (c : Nat)
  | recv (c : Nat) (v : JVal)
  | deliver (c : Nat) (failSet : List Nat)
  | disconnect (c : Nat)

/-- One atomic step.  `register c`: serveWs adds the client to the hub
under the hub lock.  `snapInit c`: serveWs marshals the current state
under the state lock.  `writeInit c`: serveWs writes that snapshot with
no lock held; a write to an already-closed transport fails and its error
is ignored (main.go line 130 discards the error).  `recv c v`: one
read-loop iteration — a decode failure changes nothing, a success
applies the command and marshals the new state under the state lock.
`deliver c F`: the `hub.broadcast` call for that marshalled snapshot,
the whole scan under the hub lock, `F` being the connections whose
transport writes fail.  `disconnect c`: the read loop exits and the
deferred cleanup deletes the client from the hub and closes its
transport (even if the broadcaster already closed it). -/
def step (st : Sys) : Ev → Option Sys
  | .register c =>
    match st.phase c with
    | .absent => some { st with registry := c :: st.registry,
                                phase := upd st.phase c .registered }
    | _ => none
  | .snapInit c =>
    match st.phase c with
    | .registered => some { st with phase := upd st.phase c (.snapped st.game) }
    | _ => none
  | .writeInit c =>
    match st.phase c with
    | .snapped s =>
      some { st with phase := upd st.phase c .active,
                     log := if st.closeCount c = 0
                            then st.log ++ [(c, s, Kind.init)] else st.log }
    | _ => none
  | .recv c v =>
    match st.phase c with
    | .active =>
      match decodeMessage v with
      | none => some st
      | some m =>
        some { st with game := applyMessage st.game m,
                       phase := upd st.phase c (.applied (applyMessage st.game m)) }
    | _ => none
  | .deliver c F =>
    match st.phase c with
    | .applied s =>
      some { st with
             registry := (broadcastScan st.registry st.registry (fun d => F.contains d) s).registry,
             phase := upd st.phase c .active,
             closeCount := fun d => st.closeCount d +
               (broadcastScan st.registry st.registry (fun d2 => F.contains d2) s).closedNow.count d,
             log := st.log ++
               ((broadcastScan st.registry st.registry (fun d => F.contains d) s).delivered.map
                  (fun p => (p.1, p.2, Kind.bcast))) }
    | _ => none
  | .disconnect c =>
    match st.phase c with
    | .active =>
      some { st with registry := st.registry.erase c,
                     phase := upd st.phase c .done,
                     closeCount := upd st.closeCount c (st.closeCount c + 1) }
    | _ => none

/-- The server state at process start (main.go lines 41-42). -/
def initSys : Sys :=
  { game := initialGame, registry := [], phase := fun _ => Phase.absent,
    closeCount := fun _ => 0, log := [] }

/-- Execution of a sequence of atomic steps; `none` means the sequence
is not a possible interleaving of the program. -/
def run : Sys → List Ev → Option Sys
  | st, [] => some st
  | st, e :: rest =>
    match step st e with
    | some st2 => run st2 rest
    | none => none

/-- The messages successfully written to connection c, in order. -/
def logFor (c : Nat) (l : List (Nat × GameState × Kind)) :
    List (Nat × GameState × Kind) :=
  l.filter (fun e => e.1 == c)

theorem logFor_append (c : Nat) (l1 l2 : List (Nat × GameState × Kind)) :
    logFor c (l1 ++ l2) = logFor c l1 ++ logFor c l2 :=
  List.filter_append l1 l2

theorem count_filter_nodup (reg : List Nat) (f : Nat → Bool) (d : Nat)
    (hnd : reg.Nodup) :
    (reg.filter f).count d = if d ∈ reg ∧ f d = true then 1 else 0 := by
  by_cases hd : d ∈ reg ∧ f d = true
  · rw [if_pos hd]
    exact List.count_eq_one_of_mem (List.Nodup.filter f hnd)
      (List.mem_filter.mpr ⟨hd.1, hd.2⟩)
  · rw [if_neg hd]
    apply List.count_eq_zero.mpr
    intro hmem
    exact hd ⟨(List.mem_filter.mp hmem).1, (List.mem_filter.mp hmem).2⟩

theorem delivered_key_mem (reg : List Nat) (f : Nat → Bool) (s : GameState)
    (x : Nat × GameState) (hx : x ∈ (broadcastScan reg reg f s).delivered) :
    x.1 ∈ reg ∧ f x.1 = false := by
  have hdl := scan_delivered f s reg reg [] []
  rw [broadcastScan] at hx
  rw [hdl] at hx
  simp only [List.nil_append, List.mem_map] at hx
  obtain ⟨d, hdm, rfl⟩ := hx
  have := List.mem_filter.mp hdm
  exact ⟨this.1, by simpa using this.2⟩

/-- Per-connection part of the reachability invariant: an absent
connection is unknown to the hub, unclosed and has never been written
to; a disconnected connection is out of the hub and has been closed
once or twice; any other connection is either live in the hub and
unclosed, or already evicted by the broadcaster and closed exactly
once. -/
def ConnInv (st : Sys) (c : Nat) : Prop :=
  (st.phase c = Phase.absent →
     c ∉ st.registry ∧ st.closeCount c = 0 ∧ logFor c st.log = []) ∧
  (st.phase c = Phase.done →
     c ∉ st.registry ∧ 1 ≤ st.closeCount c ∧ st.closeCount c ≤ 2) ∧
  (st.phase c ≠ Phase.absent → st.phase c ≠ Phase.done →
     (c ∈ st.registry ∧ st.closeCount c = 0) ∨
       (c ∉ st.registry ∧ st.closeCount c = 1))

/-- Reachability invariant: the hub's client set has no duplicates and
every connection satisfies its lifecycle invariant. -/
def SysInv (st : Sys) : Prop := st.registry.Nodup ∧ ∀ c, ConnInv st c

theorem sysInv_initSys : SysInv initSys := by
  constructor
  · exact List.nodup_nil
  · intro c
    refine ⟨fun _ => ⟨by simp [initSys], rfl, rfl⟩, fun h => ?_, fun h _ => ?_⟩
    · simp [initSys] at h
    · simp [initSys] at h

set_option maxHeartbeats 1000000 in
theorem step_inv (st st2 : Sys) (e : Ev) (hInv : SysInv st)
    (hstep : step st e = some st2) : SysInv st2 := by
  obtain ⟨hnd, hconn⟩ := hInv
  cases e with
  | register c =>
    cases hph : st.phase c with
    | absent =>
      simp only [step, hph, Option.some.injEq] at hstep
      subst hstep
      obtain ⟨hcreg, hccc, hclog⟩ := (hconn c).1 hph
      refine ⟨List.nodup_cons.mpr ⟨hcreg, hnd⟩, fun d => ?_⟩
      unfold ConnInv
      dsimp only
      by_cases hdc : d = c
      · subst hdc
        rw [upd_same]
        refine ⟨fun habs => absurd habs (by simp),
                fun hdone => absurd hdone (by simp),
                fun _ _ => Or.inl ⟨List.mem_cons_self _ _, hccc⟩⟩
      · rw [upd_ne _ _ _ _ hdc]
        have hmem : d ∈ c :: st.registry ↔ d ∈ st.registry := by
          simp [List.mem_cons, hdc]
        obtain ⟨h1, h2, h3⟩ := hconn d
        refine ⟨fun habs => ?_, fun hdone => ?_, fun hna hnd2 => ?_⟩
        · obtain ⟨ha, hb, hc2⟩ := h1 habs
          exact ⟨fun hm => ha (hmem.mp hm), hb, hc2⟩
        · obtain ⟨ha, hb, hc2⟩ := h2 hdone
          exact ⟨fun hm => ha (hmem.mp hm), hb, hc2⟩
        · rcases h3 hna hnd2 with ⟨ha, hb⟩ | ⟨ha, hb⟩
          · exact Or.inl ⟨hmem.mpr ha, hb⟩
          · exact Or.inr ⟨fun hm => ha (hmem.mp hm), hb⟩
    | registered => simp [step, hph] at hstep
    | snapped s => simp [step, hph] at hstep
    | active => simp [step, hph] at hstep
    | applied s => simp [step, hph] at hstep
    | done => simp [step, hph] at hstep
  | snapInit c =>
    cases hph : st.phase c with
    | registered =>
      simp only [step, hph, Option.some.injEq] at hstep
      subst hstep
      refine ⟨hnd, fun d => ?_⟩
      unfold ConnInv
      dsimp only
      by_cases hdc : d = c
      · subst hdc
        rw [upd_same]
        have h3 := (hconn d).2.2 (by rw [hph]; simp) (by rw [hph]; simp)
        exact ⟨fun habs => absurd habs (by simp),
               fun hdone => absurd hdone (by simp),
               fun _ _ => h3⟩
      · rw [upd_ne _ _ _ _ hdc]
        exact hconn d
    | absent => simp [step, hph] at hstep
    | snapped s => simp [step, hph] at hstep
    | active => simp [step, hph] at hstep
    | applied s => simp [step, hph] at hstep
    | done => simp [step, hph] at hstep
  | writeInit c =>
    cases hph : st.phase c with
    | snapped s =>
      simp only [step, hph, Option.some.injEq] at hstep
      subst hstep
      refine ⟨hnd, fun d => ?_⟩
      unfold ConnInv
      dsimp only
      by_cases hdc : d = c
      · subst hdc
        rw [upd_same]
        have h3 := (hconn d).2.2 (by rw [hph]; simp) (by rw [hph]; simp)
        exact ⟨fun habs => absurd habs (by simp),
               fun hdone => absurd hdone (by simp),
               fun _ _ => h3⟩
      · rw [upd_ne _ _ _ _ hdc]
        obtain ⟨h1, h2, h3⟩ := hconn d
        refine ⟨fun habs => ?_, h2, h3⟩
        obtain ⟨ha, hb, hc2⟩ := h1 habs
        refine ⟨ha, hb, ?_⟩
        by_cases hcc : st.closeCount c = 0
        · rw [if_pos hcc, logFor_append, hc2]
          have hone : logFor d [(c, s, Kind.init)] = [] := by
            simp only [logFor, List.filter_eq_nil_iff]
            intro a ha2
            simp only [List.mem_singleton] at ha2
            subst ha2
            simp only [beq_iff_eq]
            exact fun h => hdc h.symm
          simp [hone]
        · rw [if_neg hcc]
          exact hc2
    | absent => simp [step, hph] at hstep
    | registered => simp [step, hph] at hstep
    | active => simp [step, hph] at hstep
    | applied s => simp [step, hph] at hstep
    | done => simp [step, hph] at hstep
  | recv c v =>
    cases hph : st.phase c with
    | active =>
      cases hdec : decodeMessage v with
      | none =>
        simp only [step, hph, hdec, Option.some.injEq] at hstep
        subst hstep
        exact ⟨hnd, hconn⟩
      | some m =>
        simp only [step, hph, hdec, Option.some.injEq] at hstep
        subst hstep
        refine ⟨hnd, fun d => ?_⟩
        unfold ConnInv
        dsimp only
        by_cases hdc : d = c
        · subst hdc
          rw [upd_same]
          have h3 := (hconn d).2.2 (by rw [hph]; simp) (by rw [hph]; simp)
          exact ⟨fun habs => absurd habs (by simp),
                 fun hdone => absurd hdone (by simp),
                 fun _ _ => h3⟩
        · rw [upd_ne _ _ _ _ hdc]
          exact hconn d
    | absent => simp [step, hph] at hstep
    | registered => simp [step, hph] at hstep
    | snapped s => simp [step, hph] at hstep
    | applied s => simp [step, hph] at hstep
    | done => simp [step, hph] at hstep
  | deliver c F =>
    cases hph : st.phase c with
    | applied s =>
      simp only [step, hph, Option.some.injEq] at hstep
      subst hstep
      have hclosed : (broadcastScan st.registry st.registry (fun d2 => F.contains d2) s).closedNow
          = st.registry.filter (fun d2 => F.contains d2) := by
        rw [broadcastScan, scan_closed]
        simp
      have hdlv : ∀ d : Nat, d ∉ st.registry →
          logFor d ((broadcastScan st.registry st.registry (fun d2 => F.contains d2) s).delivered.map
            (fun p => (p.1, p.2, Kind.bcast))) = [] := by
        intro d hd
        simp only [logFor, List.filter_eq_nil_iff]
        intro a ha
        obtain ⟨x, hx, rfl⟩ := List.mem_map.mp ha
        have hkey := (delivered_key_mem _ _ _ x hx).1
        simp only [beq_iff_eq]
        intro heq
        exact hd (heq ▸ hkey)
      refine ⟨?_, fun d => ?_⟩
      · dsimp only
        rw [scanRegistry_full _ _ _ hnd]
        exact List.Nodup.filter _ hnd
      · unfold ConnInv
        dsimp only
        rw [scanRegistry_full _ _ _ hnd, hclosed]
        by_cases hdc : d = c
        · subst hdc
          rw [upd_same, count_filter_nodup _ _ _ hnd]
          have h3 := (hconn d).2.2 (by rw [hph]; simp) (by rw [hph]; simp)
          refine ⟨fun habs => absurd habs (by simp),
                  fun hdone => absurd hdone (by simp),
                  fun _ _ => ?_⟩
          rcases h3 with ⟨hin, hcc⟩ | ⟨hout, hcc⟩
          · by_cases hf : F.contains d = true
            · refine Or.inr ⟨?_, ?_⟩
              · intro hm
                have hx := (List.mem_filter.mp hm).2
                rw [hf] at hx
                simp at hx
              · rw [hcc, if_pos ⟨hin, hf⟩]
            · have hf2 : F.contains d = false := by
                cases hcon : F.contains d
                · rfl
                · exact absurd hcon hf
              refine Or.inl ⟨?_, ?_⟩
              · exact List.mem_filter.mpr ⟨hin, by rw [hf2]; rfl⟩
              · rw [hcc, if_neg]
                intro hand
                exact hf hand.2
          · refine Or.inr ⟨?_, ?_⟩
            · intro hm
              exact hout (List.mem_filter.mp hm).1
            · rw [hcc, if_neg]
              intro hand
              exact hout hand.1
        · rw [upd_ne _ _ _ _ hdc, count_filter_nodup _ _ _ hnd]
          obtain ⟨h1, h2, h3⟩ := hconn d
          refine ⟨fun habs => ?_, fun hdone => ?_, fun hna hnd2 => ?_⟩
          · obtain ⟨ha, hb, hc2⟩ := h1 habs
            refine ⟨?_, ?_, ?_⟩
            · intro hm
              exact ha (List.mem_filter.mp hm).1
            · rw [hb, if_neg]
              intro hand
              exact ha hand.1
            · rw [logFor_append, hc2, hdlv d ha]
              rfl
          · obtain ⟨ha, hb, hc2⟩ := h2 hdone
            refine ⟨?_, ?_, ?_⟩
            · intro hm
              exact ha (List.mem_filter.mp hm).1
            · rw [if_neg]
              · omega
              · intro hand
                exact ha hand.1
            · rw [if_neg]
              · omega
              · intro hand
                exact ha hand.1
          · rcases h3 hna hnd2 with ⟨hin, hcc⟩ | ⟨hout, hcc⟩
            · by_cases hf : F.contains d = true
              · refine Or.inr ⟨?_, ?_⟩
                · intro hm
                  have hx := (List.mem_filter.mp hm).2
                  rw [hf] at hx
                  simp at hx
                · rw [hcc, if_pos ⟨hin, hf⟩]
              · have hf2 : F.contains d = false := by
                  cases hcon : F.contains d
                  · rfl
                  · exact absurd hcon hf
                refine Or.inl ⟨?_, ?_⟩
                · exact List.mem_filter.mpr ⟨hin, by rw [hf2]; rfl⟩
                · rw [hcc, if_neg]
                  intro hand
                  exact hf hand.2
            · refine Or.inr ⟨?_, ?_⟩
              · intro hm
                exact hout (List.mem_filter.mp hm).1
              · rw [hcc, if_neg]
                intro hand
                exact hout hand.1
    | absent => simp [step, hph] at hstep
    | registered => simp [step, hph] at hstep
    | snapped s => simp [step, hph] at hstep
    | active => simp [step, hph] at hstep
    | done => simp [step, hph] at hstep
  | disconnect c =>
    cases hph : st.phase c with
    | active =>
      simp only [step, hph, Option.some.injEq] at hstep
      subst hstep
      refine ⟨List.Nodup.erase c hnd, fun d => ?_⟩
      unfold ConnInv
      dsimp only
      by_cases hdc : d = c
      · subst hdc
        rw [upd_same, upd_same]
        have h3 := (hconn d).2.2 (by rw [hph]; simp) (by rw [hph]; simp)
        refine ⟨fun habs => absurd habs (by simp),
                fun _ => ⟨?_, ?_⟩,
                fun _ hdone2 => absurd rfl hdone2⟩
        · intro hm
          have := (List.Nodup.mem_erase_iff hnd).mp hm
          exact this.1 rfl
        · rcases h3 with ⟨_, hb⟩ | ⟨_, hb⟩ <;> rw [hb] <;> omega
      · rw [upd_ne _ _ _ _ hdc, upd_ne _ _ _ _ hdc]
        have hmem : d ∈ st.registry.erase c ↔ d ∈ st.registry := by
          rw [List.Nodup.mem_erase_iff hnd]
          simp [hdc]
        obtain ⟨h1, h2, h3⟩ := hconn d
        refine ⟨fun habs => ?_, fun hdone => ?_, fun hna hnd2 => ?_⟩
        · obtain ⟨ha, hb, hc2⟩ := h1 habs
          exact ⟨fun hm => ha (hmem.mp hm), hb, hc2⟩
        · obtain ⟨ha, hb, hc2⟩ := h2 hdone
          exact ⟨fun hm => ha (hmem.mp hm), hb, hc2⟩
        · rcases h3 hna hnd2 with ⟨ha, hb⟩ | ⟨ha, hb⟩
          · exact Or.inl ⟨hmem.mpr ha, hb⟩
          · exact Or.inr ⟨fun hm => ha (hmem.mp hm), hb⟩
    | absent => simp [step, hph] at hstep
    | registered => simp [step, hph] at hstep
    | snapped s => simp [step, hph] at hstep
    | applied s => simp [step, hph] at hstep
    | done => simp [step, hph] at hstep

theorem logFor_single_ne (c d : Nat) (g : GameState) (k : Kind) (h : d ≠ c) :
    logFor c [(d, g, k)] = [] := by
  simp only [logFor, List.filter_eq_nil_iff]
  intro a ha
  simp only [List.mem_singleton] at ha
  subst ha
  simp only [beq_iff_eq]
  exact h

theorem run_cons (st : Sys) (e : Ev) (rest : List Ev) (st1 : Sys)
    (h : step st e = some st1) : run st (e :: rest) = run st1 rest := by
  simp [run, h]

theorem run_inv : ∀ (evs : List Ev) (st0 st : Sys), SysInv st0 →
    run st0 evs = some st → SysInv st := by
  intro evs
  induction evs with
  | nil =>
    intro st0 st h hrun
    simp only [run, Option.some.injEq] at hrun
    subst hrun
    exact h
  | cons e rest ih =>
    intro st0 st h hrun
    cases hstep : step st0 e with
    | none => rw [run, hstep] at hrun; exact absurd hrun (by simp)
    | some st1 =>
      rw [run_cons st0 e rest st1 hstep] at hrun
      exact ih st1 st (step_inv st0 st1 e h hstep) hrun

set_option maxHeartbeats 1000000 in
theorem silent_step (st st2 : Sys) (e : Ev) (c : Nat)
    (hInv : SysInv st) (hph : st.phase c ≠ Phase.absent) (hreg : c ∉ st.registry)
    (hstep : step st e = some st2) :
    st2.phase c ≠ Phase.absent ∧ c ∉ st2.registry ∧
      logFor c st2.log = logFor c st.log := by
  obtain ⟨hnd, hconn⟩ := hInv
  cases e with
  | register d =>
    cases hphd : st.phase d with
    | absent =>
      simp only [step, hphd, Option.some.injEq] at hstep
      subst hstep
      have hcd : c ≠ d := fun h => hph (by rw [h]; exact hphd)
      refine ⟨?_, ?_, rfl⟩
      · dsimp only
        rw [upd_ne _ _ _ _ hcd]
        exact hph
      · dsimp only
        intro hm
        rcases List.mem_cons.mp hm with h | h
        · exact hcd h
        · exact hreg h
    | registered => simp [step, hphd] at hstep
    | snapped s => simp [step, hphd] at hstep
    | active => simp [step, hphd] at hstep
    | applied s => simp [step, hphd] at hstep
    | done => simp [step, hphd] at hstep
  | snapInit d =>
    cases hphd : st.phase d with
    | registered =>
      simp only [step, hphd, Option.some.injEq] at hstep
      subst hstep
      refine ⟨?_, hreg, rfl⟩
      dsimp only
      by_cases hcd : c = d
      · subst hcd
        rw [upd_same]
        simp
      · rw [upd_ne _ _ _ _ hcd]
        exact hph
    | absent => simp [step, hphd] at hstep
    | snapped s => simp [step, hphd] at hstep
    | active => simp [step, hphd] at hstep
    | applied s => simp [step, hphd] at hstep
    | done => simp [step, hphd] at hstep
  | writeInit d =>
    cases hphd : st.phase d with
    | snapped s =>
      simp only [step, hphd, Option.some.injEq] at hstep
      subst hstep
      refine ⟨?_, hreg, ?_⟩
      · dsimp only
        by_cases hcd : c = d
        · subst hcd
          rw [upd_same]
          simp
        · rw [upd_ne _ _ _ _ hcd]
          exact hph
      · dsimp only
        by_cases hcd : c = d
        · subst hcd
          have h3 := (hconn c).2.2 (by rw [hphd]; simp) (by rw [hphd]; simp)
          rcases h3 with ⟨hin, _⟩ | ⟨_, hcc1⟩
          · exact absurd hin hreg
          · rw [if_neg (by rw [hcc1]; simp)]
        · by_cases hcc : st.closeCount d = 0
          · rw [if_pos hcc, logFor_append,
                logFor_single_ne c d s Kind.init (fun h => hcd h.symm)]
            simp
          · rw [if_neg hcc]
    | absent => simp [step, hphd] at hstep
    | registered => simp [step, hphd] at hstep
    | active => simp [step, hphd] at hstep
    | applied s => simp [step, hphd] at hstep
    | done => simp [step, hphd] at hstep
  | recv d v =>
    cases hphd : st.phase d with
    | active =>
      cases hdec : decodeMessage v with
      | none =>
        simp only [step, hphd, hdec, Option.some.injEq] at hstep
        subst hstep
        exact ⟨hph, hreg, rfl⟩
      | some m =>
        simp only [step, hphd, hdec, Option.some.injEq] at hstep
        subst hstep
        refine ⟨?_, hreg, rfl⟩
        dsimp only
        by_cases hcd : c = d
        · subst hcd
          rw [upd_same]
          simp
        · rw [upd_ne _ _ _ _ hcd]
          exact hph
    | absent => simp [step, hphd] at hstep
    | registered => simp [step, hphd] at hstep
    | snapped s => simp [step, hphd] at hstep
    | applied s => simp [step, hphd] at hstep
    | done => simp [step, hphd] at hstep
  | deliver d F =>
    cases hphd : st.phase d with
    | applied s =>
      simp only [step, hphd, Option.some.injEq] at hstep
      subst hstep
      refine ⟨?_, ?_, ?_⟩
      · dsimp only
        by_cases hcd : c = d
        · subst hcd
          rw [upd_same]
          simp
        · rw [upd_ne _ _ _ _ hcd]
          exact hph
      · dsimp only
        rw [scanRegistry_full _ _ _ hnd]
        intro hm
        exact hreg (List.mem_filter.mp hm).1
      · dsimp only
        rw [logFor_append]
        have hnil : logFor c
            ((broadcastScan st.registry st.registry (fun d2 => F.contains d2) s).delivered.map
              (fun p => (p.1, p.2, Kind.bcast))) = [] := by
          simp only [logFor, List.filter_eq_nil_iff]
          intro a ha
          obtain ⟨x, hx, rfl⟩ := List.mem_map.mp ha
          have hkey := (delivered_key_mem _ _ _ x hx).1
          simp only [beq_iff_eq]
          intro heq
          exact hreg (heq ▸ hkey)
        rw [hnil]
        simp
    | absent => simp [step, hphd] at hstep
    | registered => simp [step, hphd] at hstep
    | snapped s => simp [step, hphd] at hstep
    | active => simp [step, hphd] at hstep
    | done => simp [step, hphd] at hstep
  | disconnect d =>
    cases hphd : st.phase d with
    | active =>
      simp only [step, hphd, Option.some.injEq] at hstep
      subst hstep
      refine ⟨?_, ?_, rfl⟩
      · dsimp only
        by_cases hcd : c = d
        · subst hcd
          rw [upd_same]
          simp
        · rw [upd_ne _ _ _ _ hcd]
          exact hph
      · dsimp only
        intro hm
        exact hreg (List.mem_of_mem_erase hm)
    | absent => simp [step, hphd] at hstep
    | registered => simp [step, hphd] at hstep
    | snapped s => simp [step, hphd] at hstep
    | applied s => simp [step, hphd] at hstep
    | done => simp [step, hphd] at hstep

theorem silent_run : ∀ (evs : List Ev) (st st2 : Sys) (c : Nat),
    SysInv st → st.phase c ≠ Phase.absent → c ∉ st.registry →
    run st evs = some st2 → logFor c st2.log = logFor c st.log := by
  intro evs
  induction evs with
  | nil =>
    intro st st2 c _ _ _ hrun
    simp only [run, Option.some.injEq] at hrun
    subst hrun
    rfl
  | cons e rest ih =>
    intro st st2 c hInv hph hreg hrun
    cases hstep : step st e with
    | none => rw [run, hstep] at hrun; exact absurd hrun (by simp)
    | some st1 =>
      rw [run_cons st e rest st1 hstep] at hrun
      obtain ⟨hph1, hreg1, hlog1⟩ := silent_step st st1 e c ⟨hInv.1, hInv.2⟩ hph hreg hstep
      rw [ih st1 st2 c (step_inv st st1 e hInv hstep) hph1 hreg1 hrun, hlog1]

/-- After its initial snapshot has been written, a connection can never
return to the registration or snapshot phases. -/
def LatePhase (st : Sys) (c : Nat) : Prop :=
  st.phase c ≠ Phase.absent ∧ st.phase c ≠ Phase.registered ∧
    ∀ s, st.phase c ≠ Phase.snapped s

set_option maxHeartbeats 1000000 in
theorem late_step (st st2 : Sys) (e : Ev) (c : Nat)
    (hL : LatePhase st c) (hstep : step st e = some st2) :
    LatePhase st2 c ∧ ∃ ext, logFor c st2.log = logFor c st.log ++ ext ∧
      ∀ x ∈ ext, x.2.2 = Kind.bcast := by
  obtain ⟨hL1, hL2, hL3⟩ := hL
  cases e with
  | register d =>
    cases hphd : st.phase d with
    | absent =>
      simp only [step, hphd, Option.some.injEq] at hstep
      subst hstep
      have hcd : c ≠ d := fun h => hL1 (by rw [h]; exact hphd)
      refine ⟨⟨?_, ?_, ?_⟩, [], by simp, by simp⟩ <;>
        dsimp only <;> rw [upd_ne _ _ _ _ hcd]
      · exact hL1
      · exact hL2
      · exact hL3
    | registered => simp [step, hphd] at hstep
    | snapped s => simp [step, hphd] at hstep
    | active => simp [step, hphd] at hstep
    | applied s => simp [step, hphd] at hstep
    | done => simp [step, hphd] at hstep
  | snapInit d =>
    cases hphd : st.phase d with
    | registered =>
      simp only [step, hphd, Option.some.injEq] at hstep
      subst hstep
      have hcd : c ≠ d := fun h => hL2 (by rw [h]; exact hphd)
      refine ⟨⟨?_, ?_, ?_⟩, [], by simp, by simp⟩ <;>
        dsimp only <;> rw [upd_ne _ _ _ _ hcd]
      · exact hL1
      · exact hL2
      · exact hL3
    | absent => simp [step, hphd] at hstep
    | snapped s => simp [step, hphd] at hstep
    | active => simp [step, hphd] at hstep
    | applied s => simp [step, hphd] at hstep
    | done => simp [step, hphd] at hstep
  | writeInit d =>
    cases hphd : st.phase d with
    | snapped s =>
      simp only [step, hphd, Option.some.injEq] at hstep
      subst hstep
      have hcd : c ≠ d := fun h => hL3 s (by rw [h]; exact hphd)
      refine ⟨⟨?_, ?_, ?_⟩, [], ?_, by simp⟩
      · dsimp only; rw [upd_ne _ _ _ _ hcd]; exact hL1
      · dsimp only; rw [upd_ne _ _ _ _ hcd]; exact hL2
      · dsimp only; rw [upd_ne _ _ _ _ hcd]; exact hL3
      · dsimp only
        by_cases hcc : st.closeCount d = 0
        · rw [if_pos hcc, logFor_append,
              logFor_single_ne c d s Kind.init (fun h => hcd h.symm)]
        · rw [if_neg hcc]
          simp
    | absent => simp [step, hphd] at hstep
    | registered => simp [step, hphd] at hstep
    | active => simp [step, hphd] at hstep
    | applied s => simp [step, hphd] at hstep
    | done => simp [step, hphd] at hstep
  | recv d v =>
    cases hphd : st.phase d with
    | active =>
      cases hdec : decodeMessage v with
      | none =>
        simp only [step, hphd, hdec, Option.some.injEq] at hstep
        subst hstep
        exact ⟨⟨hL1, hL2, hL3⟩, [], by simp, by simp⟩
      | some m =>
        simp only [step, hphd, hdec, Option.some.injEq] at hstep
        subst hstep
        refine ⟨⟨?_, ?_, ?_⟩, [], by simp, by simp⟩ <;> dsimp only <;>
          by_cases hcd : c = d
        · subst hcd; rw [upd_same]; simp
        · rw [upd_ne _ _ _ _ hcd]; exact hL1
        · subst hcd; rw [upd_same]; simp
        · rw [upd_ne _ _ _ _ hcd]; exact hL2
        · subst hcd; rw [upd_same]; simp
        · rw [upd_ne _ _ _ _ hcd]; exact hL3
    | absent => simp [step, hphd] at hstep
    | registered => simp [step, hphd] at hstep
    | snapped s => simp [step, hphd] at hstep
    | applied s => simp [step, hphd] at hstep
    | done => simp [step, hphd] at hstep
  | deliver d F =>
    cases hphd : st.phase d with
    | applied s =>
      simp only [step, hphd, Option.some.injEq] at hstep
      subst hstep
      refine ⟨⟨?_, ?_, ?_⟩, ?_⟩
      · dsimp only
        by_cases hcd : c = d
        · subst hcd; rw [upd_same]; simp
        · rw [upd_ne _ _ _ _ hcd]; exact hL1
      · dsimp only
        by_cases hcd : c = d
        · subst hcd; rw [upd_same]; simp
        · rw [upd_ne _ _ _ _ hcd]; exact hL2
      · dsimp only
        by_cases hcd : c = d
        · subst hcd; rw [upd_same]; simp
        · rw [upd_ne _ _ _ _ hcd]; exact hL3
      · refine ⟨logFor c
            ((broadcastScan st.registry st.registry (fun d2 => F.contains d2) s).delivered.map
              (fun p => (p.1, p.2, Kind.bcast))), ?_, ?_⟩
        · dsimp only
          rw [logFor_append]
        · intro x hx
          have hx2 : x ∈ (broadcastScan st.registry st.registry (fun d2 => F.contains d2) s).delivered.map
              (fun p => (p.1, p.2, Kind.bcast)) := List.mem_of_mem_filter hx
          obtain ⟨p, _, rfl⟩ := List.mem_map.mp hx2
          rfl
    | absent => simp [step, hphd] at hstep
    | registered => simp [step, hphd] at hstep
    | snapped s => simp [step, hphd] at hstep
    | active => simp [step, hphd] at hstep
    | done => simp [step, hphd] at hstep
  | disconnect d =>
    cases hphd : st.phase d with
    | active =>
      simp only [step, hphd, Option.some.injEq] at hstep
      subst hstep
      refine ⟨⟨?_, ?_, ?_⟩, [], by simp, by simp⟩ <;> dsimp only <;>
        by_cases hcd : c = d
      · subst hcd; rw [upd_same]; simp
      · rw [upd_ne _ _ _ _ hcd]; exact hL1
      · subst hcd; rw [upd_same]; simp
      · rw [upd_ne _ _ _ _ hcd]; exact hL2
      · subst hcd; rw [upd_same]; simp
      · rw [upd_ne _ _ _ _ hcd]; exact hL3
    | absent => simp [step, hphd] at hstep
    | registered => simp [step, hphd] at hstep
    | snapped s => simp [step, hphd] at hstep
    | applied s => simp [step, hphd] at hstep
    | done => simp [step, hphd] at hstep

theorem late_run : ∀ (evs : List Ev) (st st2 : Sys) (c : Nat),
    LatePhase st c → run st evs = some st2 →
    ∃ ext, logFor c st2.log = logFor c st.log ++ ext ∧
      ∀ x ∈ ext, x.2.2 = Kind.bcast := by
  intro evs
  induction evs with
  | nil =>
    intro st st2 c _ hrun
    simp only [run, Option.some.injEq] at hrun
    subst hrun
    exact ⟨[], by simp, by simp⟩
  | cons e rest ih =>
    intro st st2 c hL hrun
    cases hstep : step st e with
    | none => rw [run, hstep] at hrun; exact absurd hrun (by simp)
    | some st1 =>
      rw [run_cons st e rest st1 hstep] at hrun
      obtain ⟨hL1, ext1, hext1, hbc1⟩ := late_step st st1 e c hL hstep
      obtain ⟨ext2, hext2, hbc2⟩ := ih st1 st2 c hL1 hrun
      refine ⟨ext1 ++ ext2, ?_, ?_⟩
      · rw [hext2, hext1, List.append_assoc]
      · intro x hx
        rcases List.mem_append.mp hx with h | h
        · exact hbc1 x h
        · exact hbc2 x h

/-- C7: for every inbound payload that fails to decode as a Command, the
connection loop continues without mutating the shared state and without
broadcasting, and the connection stays open: the step is accepted and
the whole server state — shared scores, registry, phases (the connection
remains in its active read-loop phase), close counts and delivery log —
is exactly unchanged, so the client observes no state change and no
error message. -/
theorem c7_decode_failure_silent (st : Sys) (c : Nat) (v : JVal)
    (hph : st.phase c = Phase.active) (hdec : decodeMessage v = none) :
    step st (Ev.recv c v) = some st := by
  simp [step, hph, hdec]

/-- A server state with one active registered connection, used to
evaluate `c7_decode_failure_silent` on a concrete malformed payload. -/
def stW7 : Sys :=
  { game := initialGame, registry := [0],
    phase := upd (fun _ => Phase.absent) 0 Phase.active,
    closeCount := fun _ => 0, log := [] }

theorem c7_decode_failure_silent_witness :
    step stW7 (Ev.recv 0 (JVal.num 3)) = some stW7 :=
  c7_decode_failure_silent stW7 0 (JVal.num 3) rfl rfl

/-- The command payload used in the concrete counterexample traces. -/
def vIncA : JVal :=
  JVal.obj [("action", JVal.str "increment"), ("team", JVal.str "A")]

/-- Interleaving in which connection 1 registers, then connection 0's
increment command is applied and broadcast before connection 1's initial
snapshot is written. -/
def evsC5 : List Ev :=
  [Ev.register 0, Ev.snapInit 0, Ev.writeInit 0, Ev.register 1,
   Ev.recv 0 vIncA, Ev.deliver 0 [], Ev.snapInit 1, Ev.writeInit 1]

/-- The state reached by `evsC5`. -/
def stC5 : Sys := (run initSys evsC5).getD initSys

/-- C5, counterexample: it is not the case that every newly registered
connection receives exactly one snapshot message before any
broadcast-triggered message.  serveWs registers the client in the hub
before sending it the initial snapshot, and no lock spans the two, so a
broadcast triggered by another connection in between reaches the new
client first: in the trace `evsC5`, connection 1's first received
message is a broadcast-triggered message (and its later initial snapshot
carries the post-increment state, not the state at registration). -/
theorem c5_counterexample_broadcast_before_snapshot :
    ¬ (∀ (evs : List Ev) (st : Sys), run initSys evs = some st →
         ∀ (c : Nat) (e : Nat × GameState × Kind),
           (logFor c st.log).head? = some e → e.2.2 = Kind.init) := by
  intro h
  have hrun : run initSys evsC5 = some stC5 := by rfl
  have h2 := h evsC5 stC5 hrun 1 (1, { scoreA := 1, scoreB := 0 }, Kind.bcast) (by rfl)
  exact absurd h2 (by decide)

/-- C5, amended: if the three registration steps of a new connection —
hub registration, taking the initial snapshot, and writing it — run
with no interleaved step of any other task, then the connection receives
exactly one initial snapshot message, it is its first received message,
it equals the shared state at the moment of registration, and every
later message it receives is broadcast-triggered.  (In general a
broadcast can interleave between registration and the initial write and
reach the connection first, and the snapshot reflects the state at
snapshot time rather than registration time.) -/
theorem c5_amended_uninterrupted_join_snapshot_first
    (pre post : List Ev) (c : Nat) (st0 stF : Sys)
    (h0 : run initSys pre = some st0)
    (habs : st0.phase c = Phase.absent)
    (hF : run st0 (Ev.register c :: Ev.snapInit c :: Ev.writeInit c :: post)
            = some stF) :
    ∃ rest, logFor c stF.log = (c, st0.game, Kind.init) :: rest ∧
      ∀ x ∈ rest, x.2.2 = Kind.bcast := by
  have hInv0 := run_inv pre initSys st0 sysInv_initSys h0
  obtain ⟨hreg0, hcc0, hlog0⟩ := (hInv0.2 c).1 habs
  have hs1 : step st0 (Ev.register c)
      = some { st0 with registry := c :: st0.registry,
                        phase := upd st0.phase c Phase.registered } := by
    simp [step, habs]
  have hs2 : step { st0 with registry := c :: st0.registry,
                             phase := upd st0.phase c Phase.registered }
        (Ev.snapInit c)
      = some { st0 with registry := c :: st0.registry,
                        phase := upd (upd st0.phase c Phase.registered) c
                          (Phase.snapped st0.game) } := by
    simp [step, upd_same]
  have hs3 : step { st0 with registry := c :: st0.registry,
                             phase := upd (upd st0.phase c Phase.registered) c
                               (Phase.snapped st0.game) }
        (Ev.writeInit c)
      = some { st0 with registry := c :: st0.registry,
                        phase := upd (upd (upd st0.phase c Phase.registered) c
                          (Phase.snapped st0.game)) c Phase.active,
                        log := st0.log ++ [(c, st0.game, Kind.init)] } := by
    simp [step, upd_same, hcc0]
  rw [run_cons _ _ _ _ hs1, run_cons _ _ _ _ hs2, run_cons _ _ _ _ hs3] at hF
  have hlate : LatePhase
      { st0 with registry := c :: st0.registry,
                 phase := upd (upd (upd st0.phase c Phase.registered) c
                   (Phase.snapped st0.game)) c Phase.active,
                 log := st0.log ++ [(c, st0.game, Kind.init)] } c := by
    refine ⟨?_, ?_, ?_⟩ <;> dsimp only <;> rw [upd_same] <;> simp
  obtain ⟨ext, hext, hbc⟩ := late_run post _ stF c hlate hF
  refine ⟨ext, ?_, hbc⟩
  rw [hext]
  dsimp only
  rw [logFor_append, hlog0]
  simp [logFor]

/-- The state reached by an uninterrupted registration of connection 0
from the initial server state. -/
def stW5 : Sys :=
  (run initSys [Ev.register 0, Ev.snapInit 0, Ev.writeInit 0]).getD initSys

theorem c5_amended_uninterrupted_join_snapshot_first_witness :
    ∃ rest, logFor 0 stW5.log = (0, initSys.game, Kind.init) :: rest ∧
      ∀ x ∈ rest, x.2.2 = Kind.bcast :=
  c5_amended_uninterrupted_join_snapshot_first [] [] 0 initSys stW5 rfl rfl (by rfl)

/-- Interleaving in which connection 1's write fails during connection
0's broadcast (so the broadcaster closes it and evicts it) and
connection 1's own read loop then exits and closes the same transport a
second time in its deferred cleanup. -/
def evsC6 : List Ev :=
  [Ev.register 0, Ev.snapInit 0, Ev.writeInit 0,
   Ev.register 1, Ev.snapInit 1, Ev.writeInit 1,
   Ev.recv 0 vIncA, Ev.deliver 0 [1], Ev.disconnect 1]

/-- The state reached by `evsC6`. -/
def stC6 : Sys := (run initSys evsC6).getD initSys

/-- C6, counterexample: it is not the case that no connection handle is
ever closed twice.  In the trace `evsC6`, the broadcaster closes
connection 1's transport when its write fails (main.go line 52) and
removal from the hub does not stop connection 1's own read loop, whose
deferred cleanup (main.go line 64) closes the same transport again:
its close count reaches 2. -/
theorem c6_counterexample_double_close :
    ¬ (∀ (evs : List Ev) (st : Sys), run initSys evs = some st →
         ∀ c, st.closeCount c ≤ 1) := by
  intro h
  have hrun : run initSys evsC6 = some stC6 := by rfl
  have h2 := h evsC6 stC6 hrun 1
  have h3 : stC6.closeCount 1 = 2 := by rfl
  omega

/-- C6, amended: in every execution, no connection receives any message
after it has been removed from the registry (once a registered
connection is out of the hub its delivery log never grows again — the
only post-removal write attempt, serveWs's initial write to a client
evicted in between, fails on the closed transport and is discarded),
and no connection handle is closed more than twice: the broadcaster
closes it at most once, the connection's own read-loop cleanup at most
once more. -/
theorem c6_amended_silent_after_removal_close_at_most_twice
    (evs : List Ev) (st : Sys) (hrun : run initSys evs = some st) :
    (∀ c, st.closeCount c ≤ 2) ∧
    (∀ c evs2 st2, st.phase c ≠ Phase.absent → c ∉ st.registry →
       run st evs2 = some st2 → logFor c st2.log = logFor c st.log) := by
  have hInv := run_inv evs initSys st sysInv_initSys hrun
  constructor
  · intro c
    obtain ⟨h1, h2, h3⟩ := hInv.2 c
    by_cases ha : st.phase c = Phase.absent
    · rw [(h1 ha).2.1]
      omega
    · by_cases hd : st.phase c = Phase.done
      · exact (h2 hd).2.2
      · rcases h3 ha hd with ⟨_, hb⟩ | ⟨_, hb⟩ <;> rw [hb] <;> omega
  · intro c evs2 st2 hph hreg hrun2
    exact silent_run evs2 st st2 c hInv hph hreg hrun2

theorem c6_amended_silent_after_removal_close_at_most_twice_witness :
    (∀ c, stC6.closeCount c ≤ 2) ∧
    (∀ c evs2 st2, stC6.phase c ≠ Phase.absent → c ∉ stC6.registry →
       run stC6 evs2 = some st2 → logFor c st2.log = logFor c stC6.log) :=
  c6_amended_silent_after_removal_close_at_most_twice evsC6 stC6 (by rfl)
